import Mathlib

/-!
Shallow embedding of the geometric binning / masking / probability utilities
of the deepH3 repository (src/deeph3/util.py), together with theorems that
settle the specification claims about them.

Conventions of the embedding:
* torch float values are modelled by exact rationals `ℚ` (the whole binning
  pipeline uses only comparisons, additions and halvings, which are exact);
  the probability layer (softmax) is modelled over the reals `ℝ`.
* a bin is a pair (lower bound, upper bound); distance tables end in an
  unbounded bin, so upper bounds live in `WithTop ℚ`.
* an `n`-length validity mask is a list of naturals (1 valid / 0 invalid),
  matching the `torch.ByteTensor` masks of the source.
* `L x L` matrices are lists of rows; binned matrices hold `ℤ` entries
  (torch `long`), since the mask fill value is `-1`.
* fallible code is modelled with `Option` / `Except`.
-/

/-- A half-open bin interval `[lower, upper)`; the upper bound may be `⊤`
(the source uses `float('Inf')` there). -/
abbrev Bin : Type := ℚ × WithTop ℚ

/-- Embedding of `util.get_dist_bins`: middle bins of width 0.5 starting at
4.0, a final unbounded bin appended, and the bin `[0, 4)` prepended.
For `num_bins < 3` the Python code raises an `IndexError` on `bins[-1]`;
the `getLastD` default is only reached in that out-of-contract case. -/
def get_dist_bins (num_bins : ℕ) : List Bin :=
  let first_bin : ℚ := 4
  let bins : List (ℚ × ℚ) := (List.range (num_bins - 2)).map
    (fun (i : ℕ) => (first_bin + (1/2) * (i : ℚ), first_bin + 1/2 + (1/2) * (i : ℚ)))
  ((0, (first_bin : WithTop ℚ)) :: bins.map (fun b => (b.1, (b.2 : WithTop ℚ)))) ++
    [(((bins.getLastD (0, first_bin)).2 : ℚ), (⊤ : WithTop ℚ))]

/-- Embedding of `util.get_angle_bins`: `num_bins` equal-width bins tiling
`[-180, 180)`. -/
def get_angle_bins (num_bins : ℕ) : List Bin :=
  let first_bin : ℚ := -180
  let bin_width : ℚ := 2 * 180 / (num_bins : ℚ)
  (List.range num_bins).map
    (fun (i : ℕ) => (first_bin + bin_width * (i : ℚ),
      ((first_bin + bin_width * ((i : ℚ) + 1) : ℚ) : WithTop ℚ)))

/-- Embedding of `util.get_omega_bins` (textually identical to
`get_angle_bins` in the source). -/
def get_omega_bins (num_bins : ℕ) : List Bin :=
  let first_bin : ℚ := -180
  let bin_width : ℚ := 2 * 180 / (num_bins : ℚ)
  (List.range num_bins).map
    (fun (i : ℕ) => (first_bin + bin_width * (i : ℚ),
      ((first_bin + bin_width * ((i : ℚ) + 1) : ℚ) : WithTop ℚ)))

/-- Embedding of `util.get_theta_bins` (textually identical to
`get_angle_bins` in the source). -/
def get_theta_bins (num_bins : ℕ) : List Bin :=
  let first_bin : ℚ := -180
  let bin_width : ℚ := 2 * 180 / (num_bins : ℚ)
  (List.range num_bins).map
    (fun (i : ℕ) => (first_bin + bin_width * (i : ℚ),
      ((first_bin + bin_width * ((i : ℚ) + 1) : ℚ) : WithTop ℚ)))

/-- Embedding of `util.get_phi_bins`: `num_bins` equal-width bins tiling
`[0, 180)`. -/
def get_phi_bins (num_bins : ℕ) : List Bin :=
  let first_bin : ℚ := 0
  let bin_width : ℚ := 180 / (num_bins : ℚ)
  (List.range num_bins).map
    (fun (i : ℕ) => (first_bin + bin_width * (i : ℚ),
      ((first_bin + bin_width * ((i : ℚ) + 1) : ℚ) : WithTop ℚ)))

/-- Embedding of `util.get_bin_values`: representative (decoded) value per
bin. The canonical half width is taken from the lower bounds of bins 1 and 2
(`(bin_values[2] - bin_values[1]) / 2`), added to every lower bound, and the
value of bin 0 is then recomputed as `bin_values[1] - 2 * bin_width`.
Lists shorter than 3 make the Python code raise an `IndexError`; the `getD`
defaults are only reached in that out-of-contract case. -/
def get_bin_values (bins : List Bin) : List ℚ :=
  let bin_values := bins.map (fun t => t.1)
  let bin_width := (bin_values.getD 2 0 - bin_values.getD 1 0) / 2
  let shifted := bin_values.map (fun v => v + bin_width)
  shifted.set 0 (shifted.getD 1 0 - 2 * bin_width)

/-- One entry of the binning loops of `util.bin_distance_matrix` /
`util.bin_euler_matrix` / `util.bin_dist_angle_matrix`: the output starts at
0 (`torch.zeros`) and, bin by bin in table order, every entry `v` with
`lower_bound <= v < upper_bound` is overwritten with the bin index. -/
def binnedEntry (bins : List Bin) (v : ℚ) : ℤ :=
  bins.enum.foldl
    (fun acc p => if p.2.1 ≤ v ∧ (v : WithTop ℚ) < p.2.2 then (p.1 : ℤ) else acc) 0

/-- The mask application inside `util.bin_distance_matrix` and
`util.bin_euler_matrix`: `not_mask = ones - mask` is expanded to `n x n`,
added to its transpose, and entries where the sum is positive are filled. -/
def applyMaskFill (mask : List ℕ) (fill : ℤ) (m : List (List ℤ)) : List (List ℤ) :=
  m.enum.map (fun p => p.2.enum.map
    (fun q => if 0 < (1 - mask.getD p.1 0) + (1 - mask.getD q.1 0) then fill else q.2))

/-- Embedding of `util.bin_distance_matrix`.  The Python defaults are
`bins=None` (which selects `get_dist_bins(26)`), `mask=None` and
`mask_fill_value=-1`; they are passed explicitly here. -/
def bin_distance_matrix (dist_matrix : List (List ℚ)) (bins : Option (List Bin))
    (mask : Option (List ℕ)) (mask_fill_value : ℤ) : List (List ℤ) :=
  let bins := bins.getD (get_dist_bins 26)
  let binned_matrix := dist_matrix.map (fun row => row.map (fun v => binnedEntry bins v))
  match mask with
  | none => binned_matrix
  | some m => applyMaskFill m mask_fill_value binned_matrix

/-- Embedding of `util.bin_euler_matrix`; identical to `bin_distance_matrix`
except that the default table is `get_angle_bins(26)`. -/
def bin_euler_matrix (euler_matrix : List (List ℚ)) (bins : Option (List Bin))
    (mask : Option (List ℕ)) (mask_fill_value : ℤ) : List (List ℤ) :=
  let bins := bins.getD (get_angle_bins 26)
  let binned_matrix := euler_matrix.map (fun row => row.map (fun v => binnedEntry bins v))
  match mask with
  | none => binned_matrix
  | some m => applyMaskFill m mask_fill_value binned_matrix

/-- Embedding of `util.bin_dist_angle_matrix`: the output is zero-initialised
with the input's shape and channels 0..3 are binned with the distance, omega,
theta and phi tables respectively.  There is no mask parameter and no
sentinel handling.  Channels beyond index 3 (absent in practice) would stay
at their zero initialisation. -/
def bin_dist_angle_matrix (dist_angle_mat : List (List (List ℚ))) (num_bins : ℕ) :
    List (List (List ℤ)) :=
  dist_angle_mat.enum.map (fun p =>
    match p.1 with
    | 0 => p.2.map (fun row => row.map (fun v => binnedEntry (get_dist_bins num_bins) v))
    | 1 => p.2.map (fun row => row.map (fun v => binnedEntry (get_omega_bins num_bins) v))
    | 2 => p.2.map (fun row => row.map (fun v => binnedEntry (get_theta_bins num_bins) v))
    | 3 => p.2.map (fun row => row.map (fun v => binnedEntry (get_phi_bins num_bins) v))
    | _ => p.2.map (fun row => row.map (fun _ => (0 : ℤ))))

/-- Embedding of `util.mask_matrix_`: the mask itself (not its complement)
is expanded to `n x n`, added to its transpose, and entries where the sum is
positive are overwritten with `not_mask_fill_value`. -/
def mask_matrix_ (mat : List (List ℚ)) (mask : List ℕ) (not_mask_fill_value : ℚ) :
    List (List ℚ) :=
  mat.enum.map (fun p => p.2.enum.map
    (fun q => if 0 < mask.getD p.1 0 + mask.getD q.1 0 then not_mask_fill_value else q.2))

/-- Python list indexing `l[k]`: a negative index counts from the end, and an
index out of `[-len, len)` raises (modelled as `none`). -/
def pyGet {α : Type} (l : List α) (k : ℤ) : Option α :=
  if 0 ≤ k then l[k.toNat]?
  else if (-k).toNat ≤ l.length then l[l.length - (-k).toNat]? else none

/-- A torch tensor, modelled as a shape together with row-major flat data. -/
structure Tensor (α : Type) where
  shape : List ℕ
  data : List α

/-- Embedding of `util.binned_dist_mat_to_values`.  The function only acts
when the input has rank exactly 2 (`len(dist_mat.shape) == 2`); otherwise it
falls through and returns Python `None` (modelled `.ok none`).  In the rank-2
branch every entry is replaced by `dist_bin_values[dist_mat[i, j]]`; an
out-of-range bin index would raise an `IndexError` (modelled `.error`). -/
def binned_dist_mat_to_values (dist_mat : Tensor ℤ) (num_bins : ℕ) :
    Except String (Option (Tensor ℚ)) :=
  if dist_mat.shape.length = 2 then
    let dist_bin_values := get_bin_values (get_dist_bins num_bins)
    let s0 := dist_mat.shape.getD 0 0
    let s1 := dist_mat.shape.getD 1 0
    match (List.range s0).mapM (fun i => (List.range s1).mapM (fun j =>
        (dist_mat.data[i * s1 + j]?).bind (fun x => pyGet dist_bin_values x))) with
    | some rows => .ok (some ⟨[s0, s1], rows.flatten⟩)
    | none => .error "IndexError"
  else .ok none

/-- Embedding of `util.binned_euler_mat_to_values`.  The function only acts
when the input has rank exactly 3; otherwise it falls through and returns
Python `None` (modelled `.ok none`). -/
def binned_euler_mat_to_values (euler_mat : Tensor ℤ) (num_bins : ℕ) :
    Except String (Option (Tensor ℚ)) :=
  if euler_mat.shape.length = 3 then
    let angle_bin_values := get_bin_values (get_angle_bins num_bins)
    let s0 := euler_mat.shape.getD 0 0
    let s1 := euler_mat.shape.getD 1 0
    let s2 := euler_mat.shape.getD 2 0
    match (List.range s0).mapM (fun i => (List.range s1).mapM (fun j =>
        (List.range s2).mapM (fun k =>
          (euler_mat.data[(i * s1 + j) * s2 + k]?).bind
            (fun x => pyGet angle_bin_values x)))) with
    | some rows => .ok (some ⟨[s0, s1, s2], rows.flatten.flatten⟩)
    | none => .error "IndexError"
  else .ok none

/-- Softmax over the bin dimension, as applied by `nn.Softmax(dim=3)` inside
`util.generate_probabilities`. -/
noncomputable def softmax {C : ℕ} (x : Fin C → ℝ) : Fin C → ℝ :=
  fun b => Real.exp (x b) / ∑ b' : Fin C, Real.exp (x b')

/-- Embedding of `util.generate_probabilities`: a rank-4 logits tensor
`(outmats, channels, L, L)` is transposed to `(outmats, L, L, channels)` and
softmax is taken over the final (channel/bin) dimension.  With tensors as
functions the two `transpose` calls are argument reorderings, and the rank-4
check of the source is enforced by the type. -/
noncomputable def generate_probabilities {M C L : ℕ}
    (logits : Fin M → Fin C → Fin L → Fin L → ℝ) :
    Fin M → Fin L → Fin L → Fin C → ℝ :=
  fun m i j => softmax (fun c => logits m c i j)

/-- Embedding of `util.contact_probs`: the rank-3 logits are unsqueezed to
rank 4, normalised, and the probability mass of bins `0 .. ang8_bin`
(the slice `probs[:, :, :ang8_bin+1]`, which clamps at the channel count)
is summed per residue pair. -/
noncomputable def contact_probs {C L : ℕ} (logits : Fin C → Fin L → Fin L → ℝ)
    (ang8_bin : ℕ) : Fin L → Fin L → ℝ :=
  fun i j => ∑ b : Fin C,
    if (b : ℕ) < ang8_bin + 1 then
      generate_probabilities (fun _ : Fin 1 => logits) ⟨0, Nat.zero_lt_one⟩ i j b
    else 0

/-- Embedding of `util.logits_to_contact_map`: a pair is in contact iff its
contact probability is strictly greater than 0.50. -/
noncomputable def logits_to_contact_map {C L : ℕ} (logits : Fin C → Fin L → Fin L → ℝ)
    (ang8_bin : ℕ) : Fin L → Fin L → Prop :=
  fun i j => contact_probs logits ang8_bin i j > 0.50

/-- The nested accumulation loop of `util.pairwise_contact_probs`: enumerate
rows, enumerate entries, and keep `(i, j, p)` exactly when `i < j`, in
row-major order. -/
def pairwise_probs_raw {α : Type} (probs : List (List α)) : List (ℕ × ℕ × α) :=
  probs.enum.flatMap (fun p => p.2.enum.filterMap
    (fun q => if p.1 < q.1 then some (p.1, q.1, q.2) else none))

/-- The listing-and-sorting core of `util.pairwise_contact_probs`:
`pairwise_probs.sort(key=lambda x: -x[2])`.  Python `list.sort` is a stable
sort on the key alone; it is modelled by the stable `List.insertionSort`
with the key comparison `-a[2] <= -b[2]`. -/
def pairwise_contact_probs_of {α : Type} [LinearOrderedField α]
    (probs : List (List α)) : List (ℕ × ℕ × α) :=
  List.insertionSort (fun a b => -a.2.2 ≤ -b.2.2) (pairwise_probs_raw probs)

/-- A `Fin`-indexed matrix materialised as a list of rows (how the tensor of
`contact_probs` looks to the row iteration of `pairwise_contact_probs`). -/
def matrixToList {L : ℕ} {α : Type} (f : Fin L → Fin L → α) : List (List α) :=
  (List.finRange L).map (fun i => (List.finRange L).map (fun j => f i j))

/-- Embedding of `util.pairwise_contact_probs`: contact probabilities are
computed from the logits and then listed and sorted. -/
noncomputable def pairwise_contact_probs {C L : ℕ}
    (logits : Fin C → Fin L → Fin L → ℝ) (ang8_bin : ℕ) : List (ℕ × ℕ × ℝ) :=
  pairwise_contact_probs_of (matrixToList (contact_probs logits ang8_bin))

/-- Python `int()` on a rational: truncation toward zero (used for
`int(len(files) * prop)` in `util.split_dir`). -/
def pyInt (q : ℚ) : ℤ :=
  if 0 ≤ q then q.floor else -((-q).floor)

/-- The directory-creation loop of `util.split_dir`: directories are checked
and created one at a time, in order; the first name that already exists (the
live filesystem, so including directories just created by this very loop)
raises a `ValueError`.  Returns the directories created before the failure,
and the error if any. -/
def mkdirLoop (existing : List String) : List String → List String × Option String
  | [] => ([], none)
  | d :: rest =>
    if d ∈ existing then
      ([], some (d ++ " already exists. Choose another directory name"))
    else
      let r := mkdirLoop (d :: existing) rest
      (d :: r.1, r.2)

/-- The copy phase of `util.split_dir`: directory `i` receives the slice
`files[cur_index:end_index]` where `end_index` adds `int(len(files) * prop)`,
except that the last directory receives all remaining files. -/
def copyPlan (files : List String) (nDirs : ℕ) :
    ℕ → ℕ → List (String × ℚ) → List (String × String)
  | _, _, [] => []
  | i, cur, (d, prop) :: rest =>
    let endIdx := if i = nDirs - 1 then files.length
      else cur + (pyInt ((files.length : ℚ) * prop)).toNat
    ((files.drop cur).take (endIdx - cur)).map (fun f => (f, d)) ++
      copyPlan files nDirs (i + 1) endIdx rest

/-- Effect model of `util.split_dir` (copy mode): given the pre-existing
filesystem entries, the requested target directory names, the split
proportions and the (already shuffled) source file list, return the
directories created, the `(file, directory)` copies performed, and the error
message if the operation raised.  The source checks the proportions first,
then runs the directory-creation loop, and only then copies files. -/
def split_dir_effects (existing : List String) (dir_names : List String)
    (split_proportions : List ℚ) (files : List String) :
    List String × List (String × String) × Option String :=
  if split_proportions.sum ≠ 1 then
    ([], [], some "split_proportions must add to 1.")
  else
    let r := mkdirLoop existing dir_names
    match r.2 with
    | some e => (r.1, [], some e)
    | none =>
      (r.1, copyPlan files dir_names.length 0 0 (dir_names.zip split_proportions), none)

/-! ### Helper lemmas about the binning fold and the distance table -/

theorem binFoldl_const (v : ℚ) :
    ∀ (l : List Bin) (k : ℕ) (acc : ℤ),
      (∀ b ∈ l, ¬(b.1 ≤ v ∧ (v : WithTop ℚ) < b.2)) →
      (l.enumFrom k).foldl
        (fun acc p => if p.2.1 ≤ v ∧ (v : WithTop ℚ) < p.2.2 then (p.1 : ℤ) else acc) acc
        = acc := by
  intro l
  induction l with
  | nil => intro k acc _; simp [List.enumFrom]
  | cons hd tl ih =>
    intro k acc h
    simp only [List.enumFrom, List.foldl_cons]
    rw [if_neg (h hd (List.mem_cons_self hd tl))]
    exact ih (k + 1) acc (fun b hb => h b (List.mem_cons_of_mem hd hb))

theorem binFoldl_last (v : ℚ) :
    ∀ (l : List Bin) (k : ℕ) (acc : ℤ) (i : ℕ) (b : Bin),
      l[i]? = some b → (b.1 ≤ v ∧ (v : WithTop ℚ) < b.2) →
      (∀ j b', i < j → l[j]? = some b' → ¬(b'.1 ≤ v ∧ (v : WithTop ℚ) < b'.2)) →
      (l.enumFrom k).foldl
        (fun acc p => if p.2.1 ≤ v ∧ (v : WithTop ℚ) < p.2.2 then (p.1 : ℤ) else acc) acc
        = ((k + i : ℕ) : ℤ) := by
  intro l
  induction l with
  | nil => intro k acc i b hb; simp at hb
  | cons hd tl ih =>
    intro k acc i b hb hin hafter
    match i with
    | 0 =>
      simp only [List.getElem?_cons_zero, Option.some.injEq] at hb
      subst hb
      simp only [List.enumFrom, List.foldl_cons, if_pos hin]
      rw [binFoldl_const v tl (k + 1) (k : ℤ) ?_]
      · simp
      · intro b' hb'
        obtain ⟨j, hj⟩ := List.mem_iff_getElem?.mp hb'
        exact hafter (j + 1) b' (Nat.succ_pos j) (by simpa using hj)
    | i' + 1 =>
      simp only [List.getElem?_cons_succ] at hb
      simp only [List.enumFrom, List.foldl_cons]
      have := ih (k + 1) (if hd.1 ≤ v ∧ (v : WithTop ℚ) < hd.2 then (k : ℤ) else acc) i' b hb hin
        (fun j b' hj hjb => hafter (j + 1) b' (Nat.succ_lt_succ hj) (by simpa using hjb))
      rw [this]
      congr 1
      omega

theorem binnedEntry_eq_of_getElem (bins : List Bin) (v : ℚ) (i : ℕ) (b : Bin)
    (hb : bins[i]? = some b) (hin : b.1 ≤ v ∧ (v : WithTop ℚ) < b.2)
    (hafter : ∀ j b', i < j → bins[j]? = some b' →
      ¬(b'.1 ≤ v ∧ (v : WithTop ℚ) < b'.2)) :
    binnedEntry bins v = (i : ℤ) := by
  unfold binnedEntry
  rw [List.enum]
  rw [binFoldl_last v bins 0 0 i b hb hin hafter]
  simp

theorem binnedEntry_eq_zero_of_no_bin (bins : List Bin) (v : ℚ)
    (h : ∀ b ∈ bins, ¬(b.1 ≤ v ∧ (v : WithTop ℚ) < b.2)) :
    binnedEntry bins v = 0 := by
  unfold binnedEntry
  rw [List.enum]
  exact binFoldl_const v bins 0 0 h

theorem binFoldl_cases (v : ℚ) :
    ∀ (l : List Bin) (k : ℕ) (acc : ℤ),
      (l.enumFrom k).foldl
        (fun acc p => if p.2.1 ≤ v ∧ (v : WithTop ℚ) < p.2.2 then (p.1 : ℤ) else acc) acc
        = acc ∨
      ∃ j : ℕ, j < l.length ∧
        (l.enumFrom k).foldl
          (fun acc p => if p.2.1 ≤ v ∧ (v : WithTop ℚ) < p.2.2 then (p.1 : ℤ) else acc) acc
          = ((k + j : ℕ) : ℤ) := by
  intro l
  induction l with
  | nil => intro k acc; left; simp [List.enumFrom]
  | cons hd tl ih =>
    intro k acc
    simp only [List.enumFrom, List.foldl_cons]
    by_cases hhd : hd.1 ≤ v ∧ (v : WithTop ℚ) < hd.2
    · rw [if_pos hhd]
      rcases ih (k + 1) (k : ℤ) with h | ⟨j, hj, heq⟩
      · right; exact ⟨0, by simp, by simpa using h⟩
      · right; exact ⟨j + 1, by simpa using Nat.succ_lt_succ hj, by rw [heq]; congr 1; omega⟩
    · rw [if_neg hhd]
      rcases ih (k + 1) acc with h | ⟨j, hj, heq⟩
      · left; exact h
      · right; exact ⟨j + 1, by simpa using Nat.succ_lt_succ hj, by rw [heq]; congr 1; omega⟩

theorem binnedEntry_nonneg (bins : List Bin) (v : ℚ) : 0 ≤ binnedEntry bins v := by
  unfold binnedEntry
  rw [List.enum]
  rcases binFoldl_cases v bins 0 0 with h | ⟨j, _, heq⟩
  · rw [h]
  · rw [heq]; positivity

theorem binnedEntry_lt_length (bins : List Bin) (v : ℚ) (h : bins ≠ []) :
    binnedEntry bins v < (bins.length : ℤ) := by
  unfold binnedEntry
  rw [List.enum]
  rcases binFoldl_cases v bins 0 0 with heq | ⟨j, hj, heq⟩
  · rw [heq]
    exact_mod_cast List.length_pos.mpr h
  · rw [heq]
    have : 0 + j < bins.length := by omega
    exact_mod_cast this

theorem get_dist_bins_length (n : ℕ) (h : 3 ≤ n) : (get_dist_bins n).length = n := by
  simp only [get_dist_bins, List.length_append, List.length_cons, List.length_map,
    List.length_range, List.length_singleton, List.length_nil]
  omega

theorem get_dist_bins_zero (n : ℕ) :
    (get_dist_bins n)[0]? = some (0, ((4 : ℚ) : WithTop ℚ)) := by
  simp [get_dist_bins]

theorem get_dist_bins_mid (n i : ℕ) (h1 : 1 ≤ i) (h2 : i ≤ n - 2) :
    (get_dist_bins n)[i]? =
      some (4 + (1/2) * (((i - 1 : ℕ)) : ℚ),
        ((4 + 1/2 + (1/2) * (((i - 1 : ℕ)) : ℚ) : ℚ) : WithTop ℚ)) := by
  have hi : i - 1 < n - 2 := by omega
  simp only [get_dist_bins, List.cons_append]
  rw [List.getElem?_cons, if_neg (by omega : ¬ i = 0), List.getElem?_append,
    if_pos (by simp only [List.length_map, List.length_range]; omega)]
  simp [List.getElem?_range hi]

theorem get_dist_bins_last (n : ℕ) (h : 3 ≤ n) :
    (get_dist_bins n)[n - 1]? =
      some (4 + 1/2 + (1/2) * (((n - 3 : ℕ)) : ℚ), (⊤ : WithTop ℚ)) := by
  have hrange : List.range (n - 2) = List.range (n - 3) ++ [n - 3] := by
    have h2 : n - 2 = (n - 3) + 1 := by omega
    rw [h2, List.range_succ]
  simp only [get_dist_bins, hrange, List.map_append, List.map_singleton,
    List.getLastD_concat]
  rw [List.cons_append, List.getElem?_cons, if_neg (by omega : ¬ n - 1 = 0),
    List.getElem?_append,
    if_neg (by simp only [List.length_append, List.length_map, List.length_range,
      List.length_singleton]; omega)]
  simp only [List.length_append, List.length_map, List.length_range, List.length_singleton]
  have h0 : n - 1 - 1 - (n - 3 + 1) = 0 := by omega
  rw [h0]
  simp

theorem get_dist_bins_ub_le_lb (n i j : ℕ) (h3 : 3 ≤ n) (hij : i < j) (hjn : j < n)
    (b b' : Bin) (hb : (get_dist_bins n)[i]? = some b)
    (hb' : (get_dist_bins n)[j]? = some b') : b.2 ≤ (b'.1 : WithTop ℚ) := by
  have hlb : (4 : ℚ) ≤ b'.1 ∧
      ((1 ≤ i → i ≤ n - 2 → 4 + 1/2 + (1/2) * (((i - 1 : ℕ)) : ℚ) ≤ b'.1)) := by
    rcases Nat.lt_or_ge j (n - 1) with hj | hj
    · have := get_dist_bins_mid n j (by omega) (by omega)
      rw [this] at hb'
      simp only [Option.some.injEq] at hb'
      subst hb'
      constructor
      · have : (0 : ℚ) ≤ (((j - 1 : ℕ)) : ℚ) := by positivity
        simp only
        linarith
      · intro hi1 hi2
        have hcast : (((i - 1 : ℕ)) : ℚ) + 1 ≤ (((j - 1 : ℕ)) : ℚ) := by
          have : (i - 1) + 1 ≤ j - 1 := by omega
          exact_mod_cast this
        simp only
        linarith
    · have hjeq : j = n - 1 := by omega
      subst hjeq
      rw [get_dist_bins_last n h3] at hb'
      simp only [Option.some.injEq] at hb'
      subst hb'
      constructor
      · have : (0 : ℚ) ≤ (((n - 3 : ℕ)) : ℚ) := by positivity
        simp only
        linarith
      · intro hi1 hi2
        have hcast : (((i - 1 : ℕ)) : ℚ) ≤ (((n - 3 : ℕ)) : ℚ) := by
          have : i - 1 ≤ n - 3 := by omega
          exact_mod_cast this
        simp only
        linarith
  rcases Nat.eq_zero_or_pos i with hi0 | hi1
  · subst hi0
    rw [get_dist_bins_zero n] at hb
    simp only [Option.some.injEq] at hb
    subst hb
    exact WithTop.coe_le_coe.mpr hlb.1
  · have hi2 : i ≤ n - 2 := by omega
    rw [get_dist_bins_mid n i hi1 hi2] at hb
    simp only [Option.some.injEq] at hb
    subst hb
    exact WithTop.coe_le_coe.mpr (hlb.2 hi1 hi2)

/-- C3: for every `num_bins ≥ 3` the distance bin table has exactly
`num_bins` half-open intervals; the first is `[0, 4)`, each of the next
`num_bins - 2` has width `0.5` starting at `4.0`, the last is unbounded
above, and the table is contiguous and non-overlapping. -/
theorem claim_C3 (num_bins : ℕ) (h3 : 3 ≤ num_bins) :
    (get_dist_bins num_bins).length = num_bins ∧
    (get_dist_bins num_bins)[0]? = some (0, ((4 : ℚ) : WithTop ℚ)) ∧
    (∀ i : ℕ, 1 ≤ i → i ≤ num_bins - 2 →
      ∃ b : Bin, (get_dist_bins num_bins)[i]? = some b ∧
        b.1 = 4 + (1/2) * (((i - 1 : ℕ)) : ℚ) ∧
        b.2 = ((b.1 + 1/2 : ℚ) : WithTop ℚ)) ∧
    (∃ b : Bin, (get_dist_bins num_bins)[num_bins - 1]? = some b ∧ b.2 = ⊤) ∧
    (∀ i : ℕ, ∀ b b' : Bin, i + 1 < num_bins →
      (get_dist_bins num_bins)[i]? = some b →
      (get_dist_bins num_bins)[i + 1]? = some b' → b.2 = (b'.1 : WithTop ℚ)) ∧
    (∀ i j : ℕ, ∀ b b' : Bin, i < j →
      (get_dist_bins num_bins)[i]? = some b →
      (get_dist_bins num_bins)[j]? = some b' →
      ∀ v : ℚ, b.1 ≤ v → (v : WithTop ℚ) < b.2 →
        ¬(b'.1 ≤ v ∧ (v : WithTop ℚ) < b'.2)) := by
  refine ⟨get_dist_bins_length num_bins h3, get_dist_bins_zero num_bins, ?_, ?_, ?_, ?_⟩
  · intro i hi1 hi2
    refine ⟨_, get_dist_bins_mid num_bins i hi1 hi2, rfl, ?_⟩
    show ((4 + 1/2 + (1/2) * (((i - 1 : ℕ)) : ℚ) : ℚ) : WithTop ℚ) =
      (((4 + (1/2) * (((i - 1 : ℕ)) : ℚ)) + 1/2 : ℚ) : WithTop ℚ)
    rw [WithTop.coe_eq_coe]
    ring
  · exact ⟨_, get_dist_bins_last num_bins h3, rfl⟩
  · intro i b b' hi hb hb'
    rcases Nat.eq_zero_or_pos i with hi0 | hi1
    · subst hi0
      rw [get_dist_bins_zero num_bins] at hb
      rw [get_dist_bins_mid num_bins 1 (le_refl 1) (by omega)] at hb'
      simp only [Option.some.injEq] at hb hb'
      subst hb; subst hb'
      norm_num
    · have hi2 : i ≤ num_bins - 2 := by omega
      rw [get_dist_bins_mid num_bins i hi1 hi2] at hb
      simp only [Option.some.injEq] at hb
      subst hb
      rcases Nat.lt_or_ge (i + 1) (num_bins - 1) with hlt | hge
      · rw [get_dist_bins_mid num_bins (i + 1) (by omega) (by omega)] at hb'
        simp only [Option.some.injEq] at hb'
        subst hb'
        simp only [Nat.add_sub_cancel, WithTop.coe_eq_coe]
        have hcast : (((i - 1 : ℕ)) : ℚ) + 1 = ((i : ℕ) : ℚ) := by
          have : (i - 1) + 1 = i := by omega
          exact_mod_cast this
        linarith
      · have hieq : i + 1 = num_bins - 1 := by omega
        rw [hieq, get_dist_bins_last num_bins h3] at hb'
        simp only [Option.some.injEq] at hb'
        subst hb'
        simp only [WithTop.coe_eq_coe]
        have hcast : (((i - 1 : ℕ)) : ℚ) = (((num_bins - 3 : ℕ)) : ℚ) := by
          have : i - 1 = num_bins - 3 := by omega
          exact_mod_cast this
        linarith
  · intro i j b b' hij hb hb' v hv1 hv2
    rintro ⟨hw1, _⟩
    have hjn : j < num_bins := by
      by_contra hcon
      rw [(List.getElem?_eq_none (by rw [get_dist_bins_length num_bins h3]; omega) :
        (get_dist_bins num_bins)[j]? = none)] at hb'
      exact Option.noConfusion hb'
    have hle := get_dist_bins_ub_le_lb num_bins i j h3 hij hjn b b' hb hb'
    have : (v : WithTop ℚ) < (b'.1 : WithTop ℚ) := lt_of_lt_of_le hv2 hle
    have hvb : v < b'.1 := by exact_mod_cast this
    linarith

/-- Witness for C3 at `num_bins = 5`. -/
theorem claim_C3_witness :
    3 ≤ 5 ∧ (get_dist_bins 5).length = 5 ∧
      (get_dist_bins 5)[0]? = some (0, ((4 : ℚ) : WithTop ℚ)) :=
  ⟨by norm_num, (claim_C3 5 (by norm_num)).1, (claim_C3 5 (by norm_num)).2.1⟩

/-- C4: for a (contiguous, per the spec's bin-table data model) table with at
least 3 bins, the representative value of bin `i ≥ 1` is
`lower_bound(i) + half_width` with `half_width` half the width of bin 1
(`u` is bin 1's finite upper bound, which contiguity makes equal to bin 2's
lower bound, the quantity the code actually reads), and the representative
value of bin 0 is `decoded(1) - 2 * half_width`. -/
theorem claim_C4 (bins : List Bin) (h3 : 3 ≤ bins.length)
    (b1 b2 : Bin) (hb1 : bins[1]? = some b1) (hb2 : bins[2]? = some b2)
    (u : ℚ) (hu : b1.2 = (u : WithTop ℚ)) (hcont : u = b2.1) :
    (∀ i : ℕ, ∀ b : Bin, 1 ≤ i → bins[i]? = some b →
      (get_bin_values bins)[i]? = some (b.1 + (u - b1.1) / 2)) ∧
    (∃ v0 v1 : ℚ, (get_bin_values bins)[0]? = some v0 ∧
      (get_bin_values bins)[1]? = some v1 ∧ v0 = v1 - 2 * ((u - b1.1) / 2)) := by
  subst hcont
  have h1 : (bins.map (fun t => t.1))[1]? = some b1.1 := by
    rw [List.getElem?_map, hb1]; rfl
  have h2 : (bins.map (fun t => t.1))[2]? = some b2.1 := by
    rw [List.getElem?_map, hb2]; rfl
  have hbw : ((bins.map (fun t => t.1)).getD 2 0 - (bins.map (fun t => t.1)).getD 1 0) / 2
      = (b2.1 - b1.1) / 2 := by
    rw [List.getD_eq_getElem?_getD, List.getD_eq_getElem?_getD, h1, h2]
    rfl
  constructor
  · intro i b hi hb
    simp only [get_bin_values]
    rw [hbw, List.getElem?_set_ne (by omega : (0 : ℕ) ≠ i), List.getElem?_map,
      List.getElem?_map, hb]
    rfl
  · refine ⟨(b1.1 + (b2.1 - b1.1) / 2) - 2 * ((b2.1 - b1.1) / 2),
      b1.1 + (b2.1 - b1.1) / 2, ?_, ?_, by ring⟩
    · simp only [get_bin_values]
      rw [hbw]
      have hv1 : ((bins.map (fun t => t.1)).map
          (fun v => v + (b2.1 - b1.1) / 2)).getD 1 0 = b1.1 + (b2.1 - b1.1) / 2 := by
        rw [List.getD_eq_getElem?_getD, List.getElem?_map, List.getElem?_map, hb1]
        rfl
      rw [hv1]
      exact List.getElem?_set_self (by simp only [List.length_map]; omega)
    · simp only [get_bin_values]
      rw [hbw, List.getElem?_set_ne (by omega : (0 : ℕ) ≠ 1), List.getElem?_map,
        List.getElem?_map, hb1]
      rfl

/-- Witness for C4 on a concrete contiguous table with 4 bins. -/
theorem claim_C4_witness :
    (∀ i : ℕ, ∀ b : Bin, 1 ≤ i →
      ([((0 : ℚ), ((4 : ℚ) : WithTop ℚ)), (4, ((9/2 : ℚ) : WithTop ℚ)),
        (9/2, ((5 : ℚ) : WithTop ℚ)), (5, (⊤ : WithTop ℚ))] : List Bin)[i]? = some b →
      (get_bin_values [((0 : ℚ), ((4 : ℚ) : WithTop ℚ)), (4, ((9/2 : ℚ) : WithTop ℚ)),
        (9/2, ((5 : ℚ) : WithTop ℚ)), (5, (⊤ : WithTop ℚ))])[i]?
        = some (b.1 + ((9/2 : ℚ) - 4) / 2)) ∧
    (∃ v0 v1 : ℚ,
      (get_bin_values [((0 : ℚ), ((4 : ℚ) : WithTop ℚ)), (4, ((9/2 : ℚ) : WithTop ℚ)),
        (9/2, ((5 : ℚ) : WithTop ℚ)), (5, (⊤ : WithTop ℚ))])[0]? = some v0 ∧
      (get_bin_values [((0 : ℚ), ((4 : ℚ) : WithTop ℚ)), (4, ((9/2 : ℚ) : WithTop ℚ)),
        (9/2, ((5 : ℚ) : WithTop ℚ)), (5, (⊤ : WithTop ℚ))])[1]? = some v1 ∧
      v0 = v1 - 2 * (((9/2 : ℚ) - 4) / 2)) :=
  claim_C4 _ (by norm_num) (4, ((9/2 : ℚ) : WithTop ℚ)) (9/2, ((5 : ℚ) : WithTop ℚ))
    rfl rfl (9/2) rfl rfl

/-- C1 (code bug): at mask `[1, 0]` (residue 0 valid, residue 1 invalid),
`mask_matrix_` overwrites exactly the entries where `mask[i] + mask[j] > 0`,
i.e. where at least one residue is VALID — it keeps the all-invalid entry
(1,1) and destroys the all-valid entry (0,0).  The module's own convention,
implemented inline in `bin_distance_matrix` (here `applyMaskFill`, which
first inverts the mask), fills exactly the entries with an invalid residue. -/
theorem claim_C1_bug_eval :
    mask_matrix_ [[5, 6], [7, 8]] [1, 0] (-1) = [[-1, -1], [-1, 8]] ∧
    mask_matrix_ [[5, 6], [7, 8]] [1, 0] (-1) ≠ [[5, -1], [-1, -1]] ∧
    applyMaskFill [1, 0] (-1) [[3, 5], [7, 9]] = [[3, -1], [-1, -1]] := by
  have h : mask_matrix_ [[5, 6], [7, 8]] [1, 0] (-1) = [[-1, -1], [-1, 8]] := rfl
  refine ⟨h, ?_, rfl⟩
  rw [h]
  intro hcon
  have : (-1 : ℚ) = 5 := by
    have := congrArg (fun l => (l[0]?).bind (fun row => row[0]?)) hcon
    simpa using this
  norm_num at this

theorem get_dist_bins_lb_nonneg (n : ℕ) : ∀ b ∈ get_dist_bins n, 0 ≤ b.1 := by
  intro b hb
  simp only [get_dist_bins, List.cons_append, List.mem_cons, List.mem_append,
    List.mem_map, List.mem_singleton] at hb
  rcases hb with hb | (⟨a, ⟨i, _, rfl⟩, rfl⟩ | (hb | hfalse))
  · rw [hb]
  · simp only
    positivity
  · rw [hb]
    simp only
    rcases List.mem_cons.mp (List.getLastD_mem_cons ((List.range (n - 2)).map
        (fun (i : ℕ) => ((4 : ℚ) + (1/2) * (i : ℚ), (4 : ℚ) + 1/2 + (1/2) * (i : ℚ))))
        (0, 4)) with hmem | hmem
    · rw [hmem]
      norm_num
    · obtain ⟨i, _, heq⟩ := List.mem_map.mp hmem
      rw [← heq]
      simp only
      positivity
  · simp at hfalse

theorem no_dist_bin_of_neg (n : ℕ) (v : ℚ) (hv : v < 0) :
    ∀ b ∈ get_dist_bins n, ¬(b.1 ≤ v ∧ (v : WithTop ℚ) < b.2) := by
  intro b hb ⟨h1, _⟩
  have := get_dist_bins_lb_nonneg n b hb
  linarith

theorem no_angle_bin_of_ge (n : ℕ) (hn : 1 ≤ n) (v : ℚ) (hv : 180 ≤ v) :
    ∀ b ∈ get_angle_bins n, ¬(b.1 ≤ v ∧ (v : WithTop ℚ) < b.2) := by
  intro b hb ⟨_, h2⟩
  simp only [get_angle_bins, List.mem_map, List.mem_range] at hb
  obtain ⟨i, hi, rfl⟩ := hb
  simp only at h2
  have hub : (-180 : ℚ) + 2 * 180 / (n : ℚ) * ((i : ℚ) + 1) ≤ 180 := by
    have hn0 : (0 : ℚ) < (n : ℚ) := by exact_mod_cast hn
    have hin : ((i : ℚ) + 1) ≤ (n : ℚ) := by exact_mod_cast hi
    rw [div_mul_eq_mul_div, ← sub_nonneg]
    have : (0 : ℚ) ≤ (360 * (n : ℚ) - 2 * 180 * ((i : ℚ) + 1)) / (n : ℚ) := by
      apply div_nonneg _ (le_of_lt hn0)
      nlinarith
    calc (0 : ℚ) ≤ (360 * (n : ℚ) - 2 * 180 * ((i : ℚ) + 1)) / (n : ℚ) := this
    _ = 180 - (-180 + 2 * 180 * ((i : ℚ) + 1) / (n : ℚ)) := by field_simp; ring
  have hlt : v < (-180 : ℚ) + 2 * 180 / (n : ℚ) * ((i : ℚ) + 1) :=
    WithTop.coe_lt_coe.mp h2
  linarith

/-- C9: an entry lying in none of the bin table's intervals (the `-1`
sentinel for the distance table, or `180` for the angle table) is left at
the zero initialisation when no mask is supplied, so it is reported as bin
index 0 — indistinguishable from a value genuinely inside bin 0. -/
theorem claim_C9 (m e : List (List ℚ)) (r c r' c' : ℕ) (v w u : ℚ)
    (hv : (m[r]?).bind (fun row => row[c]?) = some v)
    (hnv : ∀ b ∈ get_dist_bins 26, ¬(b.1 ≤ v ∧ (v : WithTop ℚ) < b.2))
    (hw : (e[r']?).bind (fun row => row[c']?) = some w)
    (hnw : ∀ b ∈ get_angle_bins 26, ¬(b.1 ≤ w ∧ (w : WithTop ℚ) < b.2))
    (hu0 : (0 : ℚ) ≤ u) (hu4 : u < 4) :
    (((bin_distance_matrix m none none (-1))[r]?).bind (fun row => row[c]?) = some 0) ∧
    (((bin_euler_matrix e none none (-1))[r']?).bind (fun row => row[c']?) = some 0) ∧
    binnedEntry (get_dist_bins 26) u = 0 := by
  obtain ⟨row, hrow, hcol⟩ : ∃ row, m[r]? = some row ∧ row[c]? = some v := by
    cases hm : m[r]? with
    | none => rw [hm] at hv; exact absurd hv (by simp)
    | some row => exact ⟨row, rfl, by rw [hm] at hv; simpa using hv⟩
  obtain ⟨row', hrow', hcol'⟩ : ∃ row', e[r']? = some row' ∧ row'[c']? = some w := by
    cases he : e[r']? with
    | none => rw [he] at hw; exact absurd hw (by simp)
    | some row' => exact ⟨row', rfl, by rw [he] at hw; simpa using hw⟩
  refine ⟨?_, ?_, ?_⟩
  · have hm : (bin_distance_matrix m none none (-1))[r]?
        = some (row.map (fun x => binnedEntry (get_dist_bins 26) x)) := by
      simp only [bin_distance_matrix]
      rw [List.getElem?_map, hrow]
      rfl
    rw [hm]
    show (row.map (fun x => binnedEntry (get_dist_bins 26) x))[c]? = some 0
    rw [List.getElem?_map, hcol]
    show some (binnedEntry (get_dist_bins 26) v) = some 0
    rw [binnedEntry_eq_zero_of_no_bin (get_dist_bins 26) v hnv]
  · have hm : (bin_euler_matrix e none none (-1))[r']?
        = some (row'.map (fun x => binnedEntry (get_angle_bins 26) x)) := by
      simp only [bin_euler_matrix]
      rw [List.getElem?_map, hrow']
      rfl
    rw [hm]
    show (row'.map (fun x => binnedEntry (get_angle_bins 26) x))[c']? = some 0
    rw [List.getElem?_map, hcol']
    show some (binnedEntry (get_angle_bins 26) w) = some 0
    rw [binnedEntry_eq_zero_of_no_bin (get_angle_bins 26) w hnw]
  · have h0 := binnedEntry_eq_of_getElem (get_dist_bins 26) u 0 (0, ((4 : ℚ) : WithTop ℚ))
      (get_dist_bins_zero 26) ⟨hu0, WithTop.coe_lt_coe.mpr hu4⟩ ?_
    · simpa using h0
    · intro j b' hj hb' ⟨hle, _⟩
      obtain ⟨hlen', _⟩ := List.getElem?_eq_some.mp hb'
      have hjn : j < 26 := by
        rw [get_dist_bins_length 26 (by norm_num)] at hlen'
        exact hlen'
      have hub := get_dist_bins_ub_le_lb 26 0 j (by norm_num) hj hjn _ b'
        (get_dist_bins_zero 26) hb'
      have h4 : (4 : ℚ) ≤ b'.1 := WithTop.coe_le_coe.mp hub
      linarith

/-- Witness for C9: the `-1` distance sentinel and the angle-domain edge
`180` are both reported as bin 0, as is the value `2` genuinely in bin 0. -/
theorem claim_C9_witness :
    (((bin_distance_matrix [[-1]] none none (-1))[0]?).bind
      (fun row => row[0]?) = some 0) ∧
    (((bin_euler_matrix [[180]] none none (-1))[0]?).bind
      (fun row => row[0]?) = some 0) ∧
    binnedEntry (get_dist_bins 26) 2 = 0 :=
  claim_C9 [[-1]] [[180]] 0 0 0 0 (-1) 180 2 rfl
    (no_dist_bin_of_neg 26 (-1) (by norm_num)) rfl
    (no_angle_bin_of_ge 26 (by norm_num) 180 (by norm_num)) (by norm_num) (by norm_num)

/-- C10: the single-matrix decoders act only on the one supported rank:
`binned_dist_mat_to_values` falls through to Python `None` for any rank
other than 2, and `binned_euler_mat_to_values` for any rank other than 3;
neither decodes nor raises there. -/
theorem claim_C10 (t u : Tensor ℤ) (num_bins num_bins' : ℕ)
    (ht : t.shape.length ≠ 2) (hu : u.shape.length ≠ 3) :
    binned_dist_mat_to_values t num_bins = .ok none ∧
    binned_euler_mat_to_values u num_bins' = .ok none := by
  constructor
  · simp only [binned_dist_mat_to_values]
    rw [if_neg ht]
  · simp only [binned_euler_mat_to_values]
    rw [if_neg hu]

/-- Witness for C10: a rank-1 tensor and a rank-2 tensor decode to `None`. -/
theorem claim_C10_witness :
    binned_dist_mat_to_values ⟨[2], [5, 7]⟩ 26 = .ok none ∧
    binned_euler_mat_to_values ⟨[1, 1], [0]⟩ 26 = .ok none :=
  claim_C10 ⟨[2], [5, 7]⟩ ⟨[1, 1], [0]⟩ 26 26 (by norm_num) (by norm_num)

/-- C2 (counterexample): a 4-channel 1-residue stack whose (all-invalid)
entries carry the sentinel `-1`, as the masked extractors produce for an
invalid residue, is not mapped to `-1` by `bin_dist_angle_matrix`: with
`num_bins = 4` the omega channel bins `-1` into angle bin 1 (interval
`[-90, 0)`), not the sentinel. -/
theorem claim_C2_counterexample :
    (bin_dist_angle_matrix [[[-1]], [[-1]], [[-1]], [[-1]]] 4)[1]? = some [[1]] ∧
    (1 : ℤ) ≠ -1 := by
  have hb1 : binnedEntry (get_omega_bins 4) (-1) = 1 := by
    simp only [get_omega_bins]
    rw [(by decide : List.range 4 = [0, 1, 2, 3])]
    simp only [List.map_cons, List.map_nil, binnedEntry, List.enum, List.enumFrom,
      List.foldl]
    norm_num [WithTop.coe_lt_coe]
    exact WithTop.coe_lt_coe.mpr (by norm_num)
  constructor
  · simp only [bin_dist_angle_matrix, List.enum, List.enumFrom, List.map_cons,
      List.map_nil]
    rw [List.getElem?_cons, if_neg (by norm_num), List.getElem?_cons, if_pos rfl]
    simp [hb1]
  · decide

/-- C2 (amended): `bin_dist_angle_matrix` applies no mask/sentinel override:
every output entry is a nonnegative bin index, so `-1` never appears in the
output at all (vacuously, an output `-1` never denotes a bin), and a
sentinel `-1` input entry is itself binned — in the distance channel it
falls in no interval and is reported as bin 0. -/
theorem claim_C2 (m : List (List (List ℚ))) (num_bins : ℕ) :
    (∀ ch ∈ bin_dist_angle_matrix m num_bins, ∀ row ∈ ch, ∀ x ∈ row, 0 ≤ x) ∧
    binnedEntry (get_dist_bins num_bins) (-1) = 0 := by
  constructor
  · intro ch hch row hrow x hx
    simp only [bin_dist_angle_matrix, List.mem_map] at hch
    obtain ⟨p, _, rfl⟩ := hch
    rcases p with ⟨i, chan⟩
    rcases i with _ | _ | _ | _ | k
    · obtain ⟨r, _, rfl⟩ := List.mem_map.mp hrow
      obtain ⟨y, _, rfl⟩ := List.mem_map.mp hx
      exact binnedEntry_nonneg _ _
    · obtain ⟨r, _, rfl⟩ := List.mem_map.mp hrow
      obtain ⟨y, _, rfl⟩ := List.mem_map.mp hx
      exact binnedEntry_nonneg _ _
    · obtain ⟨r, _, rfl⟩ := List.mem_map.mp hrow
      obtain ⟨y, _, rfl⟩ := List.mem_map.mp hx
      exact binnedEntry_nonneg _ _
    · obtain ⟨r, _, rfl⟩ := List.mem_map.mp hrow
      obtain ⟨y, _, rfl⟩ := List.mem_map.mp hx
      exact binnedEntry_nonneg _ _
    · obtain ⟨r, _, rfl⟩ := List.mem_map.mp hrow
      obtain ⟨y, _, rfl⟩ := List.mem_map.mp hx
      exact le_refl 0
  · exact binnedEntry_eq_zero_of_no_bin _ _ (no_dist_bin_of_neg num_bins (-1) (by norm_num))

/-- Witness for C2 (amended) on the concrete all-sentinel stack. -/
theorem claim_C2_witness :
    (∀ ch ∈ bin_dist_angle_matrix [[[-1]], [[-1]], [[-1]], [[-1]]] 4,
      ∀ row ∈ ch, ∀ x ∈ row, 0 ≤ x) ∧
    binnedEntry (get_dist_bins 4) (-1) = 0 :=
  claim_C2 [[[-1]], [[-1]], [[-1]], [[-1]]] 4


theorem mapM_option_of_forall_isSome {α β : Type} (f : α → Option β) :
    ∀ (l : List α), (∀ a ∈ l, (f a).isSome) →
      ∃ ys : List β, l.mapM f = some ys ∧ ys.length = l.length ∧
        ∀ k : ℕ, ys[k]? = (l[k]?).bind f := by
  intro l
  induction l with
  | nil => exact fun _ => ⟨[], rfl, rfl, fun k => by simp⟩
  | cons a t ih =>
    intro h
    obtain ⟨b, hb⟩ := Option.isSome_iff_exists.mp (h a (List.mem_cons_self a t))
    obtain ⟨ys, hys, hlen, hidx⟩ := ih (fun x hx => h x (List.mem_cons_of_mem a hx))
    refine ⟨b :: ys, ?_, by simp [hlen], ?_⟩
    · rw [List.mapM_cons, hb, hys]
      rfl
    · intro k
      cases k with
      | zero => simp [hb]
      | succ k' => simpa using hidx k'

theorem flatten_getElem? {α : Type} (C : ℕ) :
    ∀ (m : List (List α)), (∀ row ∈ m, row.length = C) → ∀ (i j : ℕ), j < C →
      m.flatten[i * C + j]? = (m[i]?).bind (fun row => row[j]?) := by
  intro m
  induction m with
  | nil => intro _ i j _; simp
  | cons row rest ih =>
    intro h i j hj
    have hrow : row.length = C := h row (List.mem_cons_self row rest)
    cases i with
    | zero =>
      simp only [List.flatten_cons, Nat.zero_mul, Nat.zero_add]
      rw [List.getElem?_append, if_pos (by omega)]
      simp
    | succ i' =>
      have hmul : (i' + 1) * C = i' * C + C := Nat.succ_mul i' C
      simp only [List.flatten_cons]
      rw [List.getElem?_append, if_neg (by rw [hmul]; omega)]
      have harith : (i' + 1) * C + j - row.length = i' * C + j := by rw [hmul]; omega
      rw [harith, ih (fun r hr => h r (List.mem_cons_of_mem row hr)) i' j hj]
      simp

theorem get_bin_values_length (bins : List Bin) :
    (get_bin_values bins).length = bins.length := by
  simp [get_bin_values]

theorem pyGet_of_nonneg {α : Type} (l : List α) (z : ℤ) (h0 : 0 ≤ z) :
    pyGet l z = l[z.toNat]? := by
  unfold pyGet
  rw [if_pos h0]

theorem binnedEntry_dist_mid (n i : ℕ) (v : ℚ) (h3 : 3 ≤ n)
    (b : Bin) (hb : (get_dist_bins n)[i]? = some b) (hlo : b.1 < v)
    (hhi : (v : WithTop ℚ) < b.2) :
    binnedEntry (get_dist_bins n) v = (i : ℤ) := by
  apply binnedEntry_eq_of_getElem (get_dist_bins n) v i b hb ⟨le_of_lt hlo, hhi⟩
  intro j b' hj hb' ⟨hle', _⟩
  obtain ⟨hjlen, _⟩ := List.getElem?_eq_some.mp hb'
  have hjn : j < n := by rw [get_dist_bins_length n h3] at hjlen; exact hjlen
  have hub := get_dist_bins_ub_le_lb n i j h3 hj hjn b b' hb hb'
  have hvb : v < b'.1 := WithTop.coe_lt_coe.mp (lt_of_lt_of_le hhi hub)
  linarith

theorem Tensor_shape_mk {α : Type} (s : List ℕ) (d : List α) : (Tensor.mk s d).shape = s :=
  rfl

theorem Tensor_data_mk {α : Type} (s : List ℕ) (d : List α) : (Tensor.mk s d).data = d :=
  rfl

theorem decode_ok (nb : ℕ) (data : List ℤ) (R C : ℕ)
    (hdata : ∀ a j : ℕ, a < R → j < C → ∃ z : ℤ, data[a * C + j]? = some z ∧
      0 ≤ z ∧ z < ((get_bin_values (get_dist_bins nb)).length : ℤ)) :
    ∃ rows : List (List ℚ),
      binned_dist_mat_to_values ⟨[R, C], data⟩ nb = .ok (some ⟨[R, C], rows.flatten⟩) ∧
      (∀ row ∈ rows, row.length = C) ∧ rows.length = R ∧
      (∀ a j : ℕ, a < R → j < C → rows.flatten[a * C + j]? =
        (data[a * C + j]?).bind (fun x => pyGet (get_bin_values (get_dist_bins nb)) x)) := by
  have hinner : ∀ a : ℕ, a < R → ∃ ys : List ℚ,
      (List.range C).mapM (fun j => (data[a * C + j]?).bind
        (fun x => pyGet (get_bin_values (get_dist_bins nb)) x)) = some ys ∧
      ys.length = C ∧
      (∀ k : ℕ, ys[k]? = ((List.range C)[k]?).bind (fun j =>
        (data[a * C + j]?).bind (fun x => pyGet (get_bin_values (get_dist_bins nb)) x))) := by
    intro a ha
    obtain ⟨ys, h1, h2, h3⟩ := mapM_option_of_forall_isSome _ (List.range C) (by
      intro j hj
      obtain ⟨z, hz, hz0, hzlt⟩ := hdata a j ha (List.mem_range.mp hj)
      show ((data[a * C + j]?).bind
        (fun x => pyGet (get_bin_values (get_dist_bins nb)) x)).isSome = true
      rw [hz]
      show (pyGet (get_bin_values (get_dist_bins nb)) z).isSome = true
      rw [pyGet_of_nonneg _ z hz0]
      have hlt : z.toNat < (get_bin_values (get_dist_bins nb)).length := by omega
      rw [List.getElem?_eq_getElem hlt]
      rfl)
    exact ⟨ys, h1, by rw [h2, List.length_range], h3⟩
  obtain ⟨rows, hrows, hrowslen, hrowsidx⟩ := mapM_option_of_forall_isSome
    (fun a => (List.range C).mapM (fun j => (data[a * C + j]?).bind
      (fun x => pyGet (get_bin_values (get_dist_bins nb)) x)))
    (List.range R) (by
      intro a ha
      obtain ⟨ys, h1, _, _⟩ := hinner a (List.mem_range.mp ha)
      exact Option.isSome_iff_exists.mpr ⟨ys, h1⟩)
  have hrowslen' : rows.length = R := by rw [hrowslen, List.length_range]
  have hrect : ∀ row ∈ rows, row.length = C := by
    intro row hrow
    obtain ⟨k, hk⟩ := List.mem_iff_getElem?.mp hrow
    have hkidx := hrowsidx k
    rw [hk] at hkidx
    obtain ⟨hkR, _⟩ := List.getElem?_eq_some.mp hk
    rw [hrowslen'] at hkR
    rw [List.getElem?_range hkR] at hkidx
    obtain ⟨ys, h1, h2, _⟩ := hinner k hkR
    have : some row = some ys := by
      rw [hkidx]
      show (List.range C).mapM (fun j => (data[k * C + j]?).bind
        (fun x => pyGet (get_bin_values (get_dist_bins nb)) x)) = some ys
      exact h1
    rw [← h2, Option.some_inj.mp this]
  refine ⟨rows, ?_, hrect, hrowslen', ?_⟩
  · simp only [binned_dist_mat_to_values, Tensor_shape_mk, Tensor_data_mk,
      List.getD_cons_zero, List.getD_cons_succ]
    rw [if_pos (show ([R, C] : List ℕ).length = 2 from rfl), hrows]
  · intro a j ha hj
    rw [flatten_getElem? C rows hrect a j hj, hrowsidx a, List.getElem?_range (by
      rw [List.length_range] at hrowslen; omega)]
    obtain ⟨ys, h1, _, h3⟩ := hinner a ha
    show ((List.range C).mapM (fun j => (data[a * C + j]?).bind
      (fun x => pyGet (get_bin_values (get_dist_bins nb)) x))).bind
        (fun row => row[j]?) = _
    rw [h1]
    show ys[j]? = _
    rw [h3 j, List.getElem?_range hj]
    rfl

/-- C5: for every `num_bins ≥ 3` and every distance value strictly inside a
non-edge bin `i` of the distance table, binning a matrix containing the value
with `bin_distance_matrix` and then decoding it with
`binned_dist_mat_to_values` yields bin `i`'s fixed representative value
`get_bin_values(...)[i]` at that entry — a quantity independent of where
inside the bin the value fell. -/
theorem claim_C5 (num_bins : ℕ) (h3 : 3 ≤ num_bins) (i : ℕ) (hi1 : 0 < i)
    (hi2 : i < num_bins - 1) (m : List (List ℚ)) (C : ℕ)
    (hrect : ∀ row ∈ m, row.length = C) (r c : ℕ) (hc : c < C)
    (v : ℚ) (hv : (m[r]?).bind (fun row => row[c]?) = some v)
    (b : Bin) (hb : (get_dist_bins num_bins)[i]? = some b)
    (hlo : b.1 < v) (hhi : (v : WithTop ℚ) < b.2) :
    ∃ res : Tensor ℚ,
      binned_dist_mat_to_values
        ⟨[m.length, C],
          (bin_distance_matrix m (some (get_dist_bins num_bins)) none (-1)).flatten⟩
        num_bins = .ok (some res) ∧
      res.data[r * C + c]? = some ((get_bin_values (get_dist_bins num_bins)).getD i 0) := by
  obtain ⟨row0, hrow0, hcol0⟩ : ∃ row0, m[r]? = some row0 ∧ row0[c]? = some v := by
    cases hm : m[r]? with
    | none => rw [hm] at hv; simp at hv
    | some row0 => exact ⟨row0, rfl, by rw [hm] at hv; simpa using hv⟩
  obtain ⟨hr, _⟩ := List.getElem?_eq_some.mp hrow0
  have hvallen : (get_bin_values (get_dist_bins num_bins)).length = num_bins := by
    rw [get_bin_values_length, get_dist_bins_length num_bins h3]
  have hBconv : bin_distance_matrix m (some (get_dist_bins num_bins)) none (-1)
      = m.map (fun row => row.map (fun x => binnedEntry (get_dist_bins num_bins) x)) := rfl
  set B := m.map (fun row => row.map (fun x => binnedEntry (get_dist_bins num_bins) x))
    with hBdef
  have hBrect : ∀ row ∈ B, row.length = C := by
    intro row hrow
    rw [hBdef] at hrow
    obtain ⟨r0, hr0, rfl⟩ := List.mem_map.mp hrow
    simp [hrect r0 hr0]
  have hne : get_dist_bins num_bins ≠ [] := by
    intro hcon
    have hl := get_dist_bins_length num_bins h3
    rw [hcon] at hl
    simp at hl
    omega
  have hdata : ∀ a j : ℕ, a < m.length → j < C →
      ∃ z : ℤ, B.flatten[a * C + j]? = some z ∧ 0 ≤ z ∧
        z < ((get_bin_values (get_dist_bins num_bins)).length : ℤ) := by
    intro a j ha hj
    rw [flatten_getElem? C B hBrect a j hj]
    have hma := List.getElem?_eq_getElem ha
    have hmem : m[a] ∈ m := List.mem_iff_getElem?.mpr ⟨a, hma⟩
    have hjl : j < (m[a]).length := by rw [hrect _ hmem]; exact hj
    have hBa : B[a]? = some ((m[a]).map
        (fun x => binnedEntry (get_dist_bins num_bins) x)) := by
      rw [hBdef, List.getElem?_map, hma]
      rfl
    rw [hBa]
    refine ⟨binnedEntry (get_dist_bins num_bins) (m[a][j]), ?_,
      binnedEntry_nonneg _ _, ?_⟩
    · show ((m[a]).map (fun x => binnedEntry (get_dist_bins num_bins) x))[j]? = _
      rw [List.getElem?_map, List.getElem?_eq_getElem hjl]
      rfl
    · have hblt := binnedEntry_lt_length (get_dist_bins num_bins) (m[a][j]) hne
      rw [get_dist_bins_length num_bins h3] at hblt
      rw [hvallen]
      exact hblt
  obtain ⟨rows, hdec, hrowsrect, hrowslen, hidx⟩ :=
    decode_ok num_bins B.flatten m.length C hdata
  refine ⟨⟨[m.length, C], rows.flatten⟩, ?_, ?_⟩
  · rw [hBconv]
    exact hdec
  · show rows.flatten[r * C + c]? = _
    rw [hidx r c hr hc, flatten_getElem? C B hBrect r c hc]
    have hBr : B[r]? = some (row0.map
        (fun x => binnedEntry (get_dist_bins num_bins) x)) := by
      rw [hBdef, List.getElem?_map, hrow0]
      rfl
    rw [hBr]
    show ((row0.map (fun x => binnedEntry (get_dist_bins num_bins) x))[c]?).bind
      (fun x => pyGet (get_bin_values (get_dist_bins num_bins)) x) = _
    rw [List.getElem?_map, hcol0]
    show pyGet (get_bin_values (get_dist_bins num_bins))
      (binnedEntry (get_dist_bins num_bins) v) = _
    rw [binnedEntry_dist_mid num_bins i v h3 b hb hlo hhi,
      pyGet_of_nonneg _ _ (by positivity : (0 : ℤ) ≤ (i : ℤ))]
    have htn : ((i : ℤ)).toNat = i := by omega
    rw [htn]
    have hilt : i < (get_bin_values (get_dist_bins num_bins)).length := by
      rw [hvallen]
      omega
    rw [List.getElem?_eq_getElem hilt]
    congr 1
    rw [List.getD_eq_getElem?_getD, List.getElem?_eq_getElem hilt]
    rfl

/-- Witness for C5: the value 17/4 lies strictly inside bin 1 `[4, 4.5)` of
the 3-bin distance table; binning then decoding the 1x1 matrix containing it
returns that bin's representative value. -/
theorem claim_C5_witness :
    ∃ res : Tensor ℚ,
      binned_dist_mat_to_values
        ⟨[([[(17/4 : ℚ)]] : List (List ℚ)).length, 1],
          (bin_distance_matrix [[(17/4 : ℚ)]] (some (get_dist_bins 3)) none (-1)).flatten⟩
        3 = .ok (some res) ∧
      res.data[0 * 1 + 0]? = some ((get_bin_values (get_dist_bins 3)).getD 1 0) :=
  claim_C5 3 (by norm_num) 1 (by norm_num) (by norm_num) [[(17/4 : ℚ)]] 1
    (by intro row hrow; rw [List.mem_singleton] at hrow; rw [hrow]; rfl)
    0 0 (by norm_num) (17/4) rfl
    (4 + (1/2) * (((1 - 1 : ℕ)) : ℚ),
      ((4 + 1/2 + (1/2) * (((1 - 1 : ℕ)) : ℚ) : ℚ) : WithTop ℚ))
    (get_dist_bins_mid 3 1 (by norm_num) (by norm_num))
    (by norm_num)
    (WithTop.coe_lt_coe.mpr (by norm_num))

theorem mkdirLoop_fails (d : String) :
    ∀ (names : List String) (existing : List String) (k : ℕ),
      names[k]? = some d → d ∈ existing → (mkdirLoop existing names).2.isSome := by
  intro names
  induction names with
  | nil => intro ex k hk _; simp at hk
  | cons n rest ih =>
    intro ex k hk hd
    simp only [mkdirLoop]
    by_cases hn : n ∈ ex
    · rw [if_pos hn]
      rfl
    · rw [if_neg hn]
      cases k with
      | zero =>
        simp only [List.getElem?_cons_zero, Option.some.injEq] at hk
        subst hk
        exact absurd hd hn
      | succ k' =>
        simp only [List.getElem?_cons_succ] at hk
        exact ih (n :: ex) k' hk (List.mem_cons_of_mem n hd)

/-- C8 (counterexample): with pre-existing directory `B` and requested
targets `[A, B]`, the split fails with a value error but has already created
directory `A` — the check-then-act is per directory, not atomic over the
requested set, so "no target directory is created" is false. -/
theorem claim_C8_counterexample :
    split_dir_effects ["B"] ["A", "B"] [1/2, 1/2] ["f"]
      = (["A"], [], some "B already exists. Choose another directory name") ∧
    (["A"] : List String) ≠ [] := by
  constructor
  · simp only [split_dir_effects]
    rw [if_neg (by norm_num [List.sum_cons, List.sum_nil] :
      ¬ ([1/2, 1/2] : List ℚ).sum ≠ 1)]
    rfl
  · simp

/-- C8 (amended): if any requested target directory already exists, the
split fails with a value error and copies no file; the directories checked
before the failing one have, however, already been created — only when the
FIRST requested directory is the pre-existing one is nothing mutated at
all. -/
theorem claim_C8 (existing dir_names : List String) (props : List ℚ)
    (files : List String) (hsum : props.sum = 1)
    (k : ℕ) (d : String) (hd : dir_names[k]? = some d) (hex : d ∈ existing) :
    (split_dir_effects existing dir_names props files).2.2.isSome ∧
    (split_dir_effects existing dir_names props files).2.1 = [] ∧
    (∀ d0 : String, dir_names[0]? = some d0 → d0 ∈ existing →
      (split_dir_effects existing dir_names props files).1 = []) := by
  have hfail := mkdirLoop_fails d dir_names existing k hd hex
  obtain ⟨e, he⟩ := Option.isSome_iff_exists.mp hfail
  have hsd : split_dir_effects existing dir_names props files
      = ((mkdirLoop existing dir_names).1, [], some e) := by
    simp only [split_dir_effects]
    rw [if_neg (by rw [hsum]; simp), he]
  rw [hsd]
  refine ⟨rfl, rfl, ?_⟩
  intro d0 h0 hex0
  cases dir_names with
  | nil => simp at h0
  | cons n rest =>
    simp only [List.getElem?_cons_zero, Option.some.injEq] at h0
    subst h0
    simp only [mkdirLoop, if_pos hex0]

/-- Witness for C8 (amended) at the counterexample input. -/
theorem claim_C8_witness :
    (split_dir_effects ["B"] ["A", "B"] [1/2, 1/2] ["f"]).2.2.isSome ∧
    (split_dir_effects ["B"] ["A", "B"] [1/2, 1/2] ["f"]).2.1 = [] ∧
    (∀ d0 : String, (["A", "B"] : List String)[0]? = some d0 → d0 ∈ (["B"] : List String) →
      (split_dir_effects ["B"] ["A", "B"] [1/2, 1/2] ["f"]).1 = []) :=
  claim_C8 ["B"] ["A", "B"] [1/2, 1/2] ["f"]
    (by norm_num [List.sum_cons, List.sum_nil]) 1 "B" rfl (by decide)

/-- C6: a pair is marked in contact iff the softmax probability mass of bins
0..ang8_bin (inclusive) strictly exceeds 0.50; a pair whose mass is exactly
0.50 is not in contact; and a pair whose bin-0 probability alone exceeds
0.50 (in particular one with all mass in bin 0) is in contact. -/
theorem claim_C6 {C L : ℕ} (logits : Fin C → Fin L → Fin L → ℝ) (ang8_bin : ℕ)
    (i j : Fin L) (b0 : Fin C) (hb0 : (b0 : ℕ) = 0) :
    (logits_to_contact_map logits ang8_bin i j ↔
      (∑ b ∈ Finset.univ.filter (fun b : Fin C => (b : ℕ) ≤ ang8_bin),
        Real.exp (logits b i j) / ∑ b' : Fin C, Real.exp (logits b' i j)) > 0.50) ∧
    ((∑ b ∈ Finset.univ.filter (fun b : Fin C => (b : ℕ) ≤ ang8_bin),
        Real.exp (logits b i j) / ∑ b' : Fin C, Real.exp (logits b' i j)) = 0.50 →
      ¬ logits_to_contact_map logits ang8_bin i j) ∧
    (Real.exp (logits b0 i j) / (∑ b' : Fin C, Real.exp (logits b' i j)) > 0.50 →
      logits_to_contact_map logits ang8_bin i j) := by
  have hsum : contact_probs logits ang8_bin i j
      = ∑ b ∈ Finset.univ.filter (fun b : Fin C => (b : ℕ) ≤ ang8_bin),
        Real.exp (logits b i j) / ∑ b' : Fin C, Real.exp (logits b' i j) := by
    unfold contact_probs generate_probabilities softmax
    rw [Finset.sum_filter]
    apply Finset.sum_congr rfl
    intro b _
    simp [Nat.lt_succ_iff]
  refine ⟨?_, ?_, ?_⟩
  · unfold logits_to_contact_map
    rw [hsum]
  · intro heq hcon
    unfold logits_to_contact_map at hcon
    rw [hsum, heq] at hcon
    exact lt_irrefl _ hcon
  · intro hgt
    unfold logits_to_contact_map
    rw [hsum]
    have hterm : Real.exp (logits b0 i j) / (∑ b' : Fin C, Real.exp (logits b' i j))
        ≤ ∑ b ∈ Finset.univ.filter (fun b : Fin C => (b : ℕ) ≤ ang8_bin),
          Real.exp (logits b i j) / ∑ b' : Fin C, Real.exp (logits b' i j) := by
      exact @Finset.single_le_sum (Fin C) ℝ _
        (fun b => Real.exp (logits b i j) / ∑ b' : Fin C, Real.exp (logits b' i j))
        (Finset.univ.filter (fun b : Fin C => (b : ℕ) ≤ ang8_bin))
        (fun x _ => div_nonneg (Real.exp_nonneg _)
          (Finset.sum_nonneg (fun y _ => Real.exp_nonneg _)))
        b0 (Finset.mem_filter.mpr ⟨Finset.mem_univ b0, by omega⟩)
    exact lt_of_lt_of_le hgt hterm

/-- Witness for C6: with two bins and both logits zero the contact mass is
exactly 0.50 and the pair is not in contact; with the bin-0 logit raised to 1
the bin-0 mass exceeds 0.50 and the pair is in contact. -/
theorem claim_C6_witness :
    (¬ logits_to_contact_map (fun (_ : Fin 2) (_ : Fin 1) (_ : Fin 1) => (0 : ℝ)) 0 0 0) ∧
    logits_to_contact_map
      (fun (b : Fin 2) (_ : Fin 1) (_ : Fin 1) => if b = 0 then (1 : ℝ) else 0) 0 0 0 := by
  constructor
  · apply (claim_C6 (fun (_ : Fin 2) (_ : Fin 1) (_ : Fin 1) => (0 : ℝ)) 0 0 0 0 rfl).2.1
    rw [Finset.sum_filter, Fin.sum_univ_two, Fin.sum_univ_two]
    norm_num [Real.exp_zero]
  · apply (claim_C6
      (fun (b : Fin 2) (_ : Fin 1) (_ : Fin 1) => if b = 0 then (1 : ℝ) else 0)
      0 0 0 0 rfl).2.2
    have hone : (1 : ℝ) < Real.exp 1 := by
      have h := Real.exp_lt_exp.mpr (zero_lt_one (α := ℝ))
      rwa [Real.exp_zero] at h
    rw [Fin.sum_univ_two]
    norm_num [Real.exp_zero]
    rw [lt_div_iff₀ (by positivity)]
    nlinarith [Real.exp_pos 1]

theorem length_filterMap_if {α β : Type} (p : α → Prop) [DecidablePred p] (g : α → β) :
    ∀ l : List α, (l.filterMap (fun a => if p a then some (g a) else none)).length
      = l.countP (fun a => decide (p a)) := by
  intro l
  induction l with
  | nil => rfl
  | cons a t ih =>
    by_cases hpa : p a
    · simp [List.filterMap_cons, hpa, List.countP_cons, ih]
    · simp [List.filterMap_cons, hpa, List.countP_cons, ih]

theorem countP_enumFrom_gt {α : Type} (i : ℕ) :
    ∀ (l : List α) (k : ℕ), (l.enumFrom k).countP (fun q => decide (i < q.1))
      = (k + l.length) - max k (i + 1) := by
  intro l
  induction l with
  | nil => intro k; simp [List.enumFrom]
  | cons a t ih =>
    intro k
    simp only [List.enumFrom, List.countP_cons, ih (k + 1)]
    by_cases hik : i < k
    · rw [if_pos (by simpa using hik)]
      simp only [List.length_cons]
      omega
    · rw [if_neg (by simpa using hik)]
      simp only [List.length_cons]
      omega

theorem sum_map_succ {α : Type} (g : α → ℕ) :
    ∀ l : List α, (l.map (fun i => g i + 1)).sum = (l.map g).sum + l.length := by
  intro l
  induction l with
  | nil => rfl
  | cons a t ih => simp [ih]; omega

theorem sum_range_rev (L : ℕ) :
    ((List.range L).map (fun i => L - (i + 1))).sum = L * (L - 1) / 2 := by
  induction L with
  | zero => rfl
  | succ n ih =>
    rw [List.range_succ, List.map_append, List.sum_append]
    have hmap : (List.range n).map (fun i => n + 1 - (i + 1))
        = (List.range n).map (fun i => (n - (i + 1)) + 1) := by
      apply List.map_congr_left
      intro a ha
      rw [List.mem_range] at ha
      omega
    rw [hmap, sum_map_succ (fun i => n - (i + 1)) (List.range n), ih]
    simp only [List.map_singleton, List.length_range, List.sum_singleton]
    have hmul : (n + 1) * (n + 1 - 1) = n * (n - 1) + 2 * n := by
      cases n with
      | zero => rfl
      | succ m =>
        simp only [Nat.succ_sub_one]
        ring
    omega

theorem pairwise_probs_raw_length {α : Type} (L : ℕ) (probs : List (List α))
    (hL : probs.length = L) (hrect : ∀ row ∈ probs, row.length = L) :
    (pairwise_probs_raw probs).length = L * (L - 1) / 2 := by
  unfold pairwise_probs_raw
  rw [List.length_flatMap]
  have hmap : probs.enum.map (List.length ∘ (fun p : ℕ × List α => p.2.enum.filterMap
      (fun q => if p.1 < q.1 then some (p.1, q.1, q.2) else none)))
      = (List.range L).map (fun i => L - (i + 1)) := by
    apply List.ext_getElem?
    intro n
    rw [List.getElem?_map, List.getElem?_map, List.getElem?_enum]
    by_cases hn : n < L
    · rw [List.getElem?_range hn, List.getElem?_eq_getElem (show n < probs.length by omega)]
      simp only [Option.map_some', Option.some.injEq, Function.comp]
      have hmem : probs[n] ∈ probs :=
        List.mem_iff_getElem?.mpr ⟨n, List.getElem?_eq_getElem (by omega)⟩
      rw [length_filterMap_if (fun q : ℕ × α => n < q.1) (fun q => (n, q.1, q.2)),
        List.enum, countP_enumFrom_gt]
      rw [hrect _ hmem]
      omega
    · rw [(List.getElem?_eq_none (by rw [List.length_range]; omega) :
        (List.range L)[n]? = none),
        (List.getElem?_eq_none (show probs.length ≤ n by omega) : probs[n]? = none)]
      rfl
  rw [hmap, sum_range_rev]

theorem pairwise_probs_raw_mem {α : Type} (probs : List (List α)) (t : ℕ × ℕ × α) :
    t ∈ pairwise_probs_raw probs ↔
      (t.1 < t.2.1 ∧ (probs[t.1]?).bind (fun row => row[t.2.1]?) = some t.2.2) := by
  unfold pairwise_probs_raw
  rw [List.mem_flatMap]
  constructor
  · rintro ⟨p, hp, ht⟩
    rw [List.mem_filterMap] at ht
    obtain ⟨q, hq, hqe⟩ := ht
    by_cases hlt : p.1 < q.1
    · rw [if_pos hlt] at hqe
      have ht' : t = (p.1, q.1, q.2) := (Option.some_inj.mp hqe).symm
      subst ht'
      refine ⟨hlt, ?_⟩
      rw [(List.mem_enum_iff_getElem?.mp hp : probs[p.1]? = some p.2)]
      exact List.mem_enum_iff_getElem?.mp hq
    · rw [if_neg hlt] at hqe
      exact absurd hqe (by simp)
  · rintro ⟨hlt, hbind⟩
    obtain ⟨row, hrow, hcol⟩ : ∃ row, probs[t.1]? = some row ∧ row[t.2.1]? = some t.2.2 := by
      cases hm : probs[t.1]? with
      | none => rw [hm] at hbind; simp at hbind
      | some row => exact ⟨row, rfl, by rw [hm] at hbind; simpa using hbind⟩
    refine ⟨(t.1, row), List.mem_enum_iff_getElem?.mpr hrow, ?_⟩
    rw [List.mem_filterMap]
    exact ⟨(t.2.1, t.2.2), List.mem_enum_iff_getElem?.mpr hcol, by rw [if_pos hlt]⟩

/-- C7: the pairwise contact listing contains exactly the `L*(L-1)/2` tuples
`(i, j, p)` with `i < j` (each `p` the matrix entry at `(i, j)`), sorted in
descending order of `p`; the sort is stable on the probability key alone, so
tuples with equal probability keep their original row-major order (their
subsequence equals that of the unsorted row-major listing). -/
theorem claim_C7 {α : Type} [LinearOrderedField α] (L : ℕ) (probs : List (List α))
    (hL : probs.length = L) (hrect : ∀ row ∈ probs, row.length = L) :
    (pairwise_contact_probs_of probs).length = L * (L - 1) / 2 ∧
    (pairwise_contact_probs_of probs).Sorted
      (fun a b : ℕ × ℕ × α => b.2.2 ≤ a.2.2) ∧
    (∀ t : ℕ × ℕ × α, t ∈ pairwise_contact_probs_of probs ↔
      (t.1 < t.2.1 ∧ (probs[t.1]?).bind (fun row => row[t.2.1]?) = some t.2.2)) ∧
    (∀ c : α, (pairwise_contact_probs_of probs).filter (fun t => t.2.2 = c)
      = (pairwise_probs_raw probs).filter (fun t => t.2.2 = c)) := by
  haveI htot : IsTotal (ℕ × ℕ × α) (fun a b => -a.2.2 ≤ -b.2.2) :=
    ⟨fun a b => le_total _ _⟩
  haveI htrans : IsTrans (ℕ × ℕ × α) (fun a b => -a.2.2 ≤ -b.2.2) :=
    ⟨fun _ _ _ hab hbc => le_trans hab hbc⟩
  refine ⟨?_, ?_, ?_, ?_⟩
  · rw [pairwise_contact_probs_of,
      (List.perm_insertionSort _ (pairwise_probs_raw probs)).length_eq]
    exact pairwise_probs_raw_length L probs hL hrect
  · have hs := List.sorted_insertionSort (fun a b : ℕ × ℕ × α => -a.2.2 ≤ -b.2.2)
      (pairwise_probs_raw probs)
    exact List.Pairwise.imp (fun hab => by simpa using hab) hs
  · intro t
    rw [pairwise_contact_probs_of, List.mem_insertionSort]
    exact pairwise_probs_raw_mem probs t
  · intro c
    set B := (pairwise_probs_raw probs).filter (fun t => t.2.2 = c) with hBdef
    have hBpair : B.Pairwise (fun a b : ℕ × ℕ × α => -a.2.2 ≤ -b.2.2) := by
      apply List.pairwise_of_forall_mem_list
      intro a ha b hb
      have ha' : a.2.2 = c := by simpa using (List.mem_filter.mp ha).2
      have hb' : b.2.2 = c := by simpa using (List.mem_filter.mp hb).2
      rw [ha', hb']
    have hBsorted := List.sublist_insertionSort hBpair
      (List.filter_sublist (pairwise_probs_raw probs))
    have hBB : B.filter (fun t : ℕ × ℕ × α => t.2.2 = c) = B :=
      List.filter_eq_self.mpr (fun a ha => (List.mem_filter.mp ha).2)
    have hAB : B.Sublist ((pairwise_contact_probs_of probs).filter
        (fun t : ℕ × ℕ × α => t.2.2 = c)) := by
      rw [← hBB]
      exact List.Sublist.filter _ hBsorted
    have hperm : ((pairwise_contact_probs_of probs).filter
        (fun t : ℕ × ℕ × α => t.2.2 = c)).Perm B :=
      (List.perm_insertionSort _ (pairwise_probs_raw probs)).filter _
    exact (hAB.eq_of_length hperm.length_eq.symm).symm

/-- Witness for C7 on the spec's 3-residue example (probabilities 0.9 for
(0,1), 0.3 for (0,2) and 0.6 for (1,2)). -/
theorem claim_C7_witness :
    (pairwise_contact_probs_of [[(0 : ℚ), 9/10, 3/10], [0, 0, 6/10],
      [0, 0, 0]]).length = 3 * (3 - 1) / 2 ∧
    (pairwise_contact_probs_of [[(0 : ℚ), 9/10, 3/10], [0, 0, 6/10],
      [0, 0, 0]]).Sorted (fun a b : ℕ × ℕ × ℚ => b.2.2 ≤ a.2.2) ∧
    (∀ t : ℕ × ℕ × ℚ, t ∈ pairwise_contact_probs_of
      [[(0 : ℚ), 9/10, 3/10], [0, 0, 6/10], [0, 0, 0]] ↔
      (t.1 < t.2.1 ∧ (([[(0 : ℚ), 9/10, 3/10], [0, 0, 6/10],
        [0, 0, 0]] : List (List ℚ))[t.1]?).bind
          (fun row => row[t.2.1]?) = some t.2.2)) ∧
    (∀ c : ℚ, (pairwise_contact_probs_of [[(0 : ℚ), 9/10, 3/10], [0, 0, 6/10],
        [0, 0, 0]]).filter (fun t => t.2.2 = c)
      = (pairwise_probs_raw [[(0 : ℚ), 9/10, 3/10], [0, 0, 6/10],
        [0, 0, 0]]).filter (fun t => t.2.2 = c)) :=
  claim_C7 3 [[(0 : ℚ), 9/10, 3/10], [0, 0, 6/10], [0, 0, 0]] rfl
    (by intro row hrow; simp only [List.mem_cons, List.not_mem_nil, or_false] at hrow
        rcases hrow with rfl | rfl | rfl <;> rfl)
